import Mathlib

/-!
Shallow embedding of `src/viking/src/functions.rs` (the function-registry
CSV loader/writer and the fuzzy name resolver).

Modelling conventions:
* Machine integers (`u64`, `u32`) are `Nat` with explicit `% 2 ^ 64` where the
  Rust code can wrap and explicit `< 2 ^ w` bounds elsewhere.
* Fallible Rust functions returning `anyhow::Result<T>` become
  `Except Error T`; each `bail!`/`ensure!` site gets its own `Error`
  constructor, and `with_context` becomes the `Error.lineContext` wrapper.
* File IO is abstracted, but the CSV byte layer is modelled: the loader's
  record layer works on `List (List String)` (what
  `csv::Reader::read_record` / `csv::Writer::write_record` produce/consume),
  and `csvWriteFile` / `csvReadRecords` model the asymmetric byte layer —
  the writer's default `QuoteStyle::Necessary` quotes and double-quote
  escapes any field containing a quote, the delimiter or a CR/LF, and ends
  records with `\n`; the reader has quoting disabled, splits records on
  CRLF/CR/LF, skips blank lines and splits fields on the delimiter with
  quote bytes treated as ordinary characters.  The reader is non-flexible,
  so a data record whose arity differs from the first record's arity is a
  read error, modelled by `Error.csvUnequalLengths`.
* The external `cpp_demangle` crate is abstracted by an arbitrary oracle
  `String → Option String`; `demangle_str` keeps the `_Z`-marker check that
  is in the source.
-/

inductive Status where
  | Matching
  | NonMatchingMinor
  | NonMatchingMajor
  | NotDecompiled
  | Wip
  | Library
deriving DecidableEq, Repr

structure Info where
  addr : Nat
  size : Nat
  name : String
  status : Status
deriving DecidableEq, Repr

/-- `Info::is_decompiled`: status is none of NotDecompiled, Library. -/
def Info.is_decompiled (i : Info) : Bool :=
  match i.status with
  | .NotDecompiled | .Library => false
  | _ => true

def CSV_HEADER : List String := ["Address", "Quality", "Size", "Name"]

def ADDRESS_BASE : Nat := 0x7100000000

/-- Error type: one constructor per `bail!` / `ensure!` / parse-error site. -/
inductive Error where
  /-- integer parse failure (`u64::from_str_radix` / `u32::from_str`) -/
  | parseInt
  /-- `ensure!(record.len() == 4, "invalid record")` in `parse_function_csv_entry` -/
  | invalidRecord
  /-- `bail!("unexpected status code: {}", code)` -/
  | unknownStatusCode (c : Char)
  /-- `bail!("missing status code")` -/
  | missingStatusCode
  /-- `with_context(|| format!("failed to parse CSV record at line {}", line_number))` -/
  | lineContext (line : Nat) (e : Error)
  /-- `ensure!(record.len() == 4, "invalid record; expected 4 fields")` (header arity) -/
  | headerArity
  /-- `ensure!(record == *CSV_HEADER, "wrong CSV format; ...")` -/
  | wrongFormat
  /-- `bail!("function at {:016x} is marked as O/M/m but has an empty name", entry.addr | ADDRESS_BASE)`;
  carries the number that is formatted into the message -/
  | missingName (addr : Nat)
  /-- `bail!("found duplicates: {:#?}", duplicates)`; carries the collected list -/
  | duplicateNames (names : List String)
  /-- a csv read error from the non-flexible reader (record arity differs from the first record) -/
  | csvUnequalLengths
deriving DecidableEq, Repr

/-- The two `ensure!` failures of the header check are the spec's FormatError. -/
def Error.isFormat : Error → Bool
  | .headerArity | .wrongFormat => true
  | _ => false

/-- Value of a hex digit, as in `char::to_digit(16)` used by `u64::from_str_radix`. -/
def hexValOfChar (c : Char) : Option Nat :=
  if '0' ≤ c ∧ c ≤ '9' then some (c.toNat - 48)
  else if 'a' ≤ c ∧ c ≤ 'f' then some (c.toNat - 87)
  else if 'A' ≤ c ∧ c ≤ 'F' then some (c.toNat - 55)
  else none

def parseHexDigits : List Char → Nat → Option Nat
  | [], acc => some acc
  | c :: cs, acc =>
    match hexValOfChar c with
    | some d => parseHexDigits cs (acc * 16 + d)
    | none => none

/-- `u64::from_str_radix(s, 16)`: optional leading `+`, at least one digit,
error on any non-digit and on overflow past `u64::MAX`. -/
def fromStrRadix16 (s : List Char) : Except Error Nat :=
  let digits := if s.head? = some '+' then s.tail else s
  if digits = [] then .error .parseInt
  else
    match parseHexDigits digits 0 with
    | none => .error .parseInt
    | some v => if v < 2 ^ 64 then .ok v else .error .parseInt

/-- `parse_base_16`: strip a leading `0x` if present, then `from_str_radix(_, 16)`. -/
def parse_base_16 (s : String) : Except Error Nat :=
  match s.data with
  | '0' :: 'x' :: rest => fromStrRadix16 rest
  | l => fromStrRadix16 l

/-- `parse_address`: `parse_base_16(value)? - ADDRESS_BASE`.  The Rust `-` on
`u64` does not return an error when the subtrahend is larger: it wraps
modulo `2 ^ 64` (it panics instead when overflow checks are compiled in);
modelled as wrapping subtraction. -/
def parse_address (s : String) : Except Error Nat :=
  (parse_base_16 s).map (fun v => (v + 2 ^ 64 - ADDRESS_BASE) % 2 ^ 64)

/-- Value of a decimal digit, as used by `u32::from_str`. -/
def decValOfChar (c : Char) : Option Nat :=
  if '0' ≤ c ∧ c ≤ '9' then some (c.toNat - 48) else none

def parseDecDigits : List Char → Nat → Option Nat
  | [], acc => some acc
  | c :: cs, acc =>
    match decValOfChar c with
    | some d => parseDecDigits cs (acc * 10 + d)
    | none => none

/-- `record[2].parse::<u32>()`: optional leading `+`, at least one digit,
error on any non-digit and on overflow past `u32::MAX`. -/
def parseU32 (s : String) : Except Error Nat :=
  let digits := if s.data.head? = some '+' then s.data.tail else s.data
  if digits = [] then .error .parseInt
  else
    match parseDecDigits digits 0 with
    | none => .error .parseInt
    | some v => if v < 2 ^ 32 then .ok v else .error .parseInt

/-- The status-code table of `parse_function_csv_entry` (code → variant). -/
def statusOfChar (c : Char) : Option Status :=
  if c = 'm' then some .NonMatchingMinor
  else if c = 'M' then some .NonMatchingMajor
  else if c = 'O' then some .Matching
  else if c = 'U' then some .NotDecompiled
  else if c = 'W' then some .Wip
  else if c = 'L' then some .Library
  else none

/-- The status table of `write_functions_to_path` (variant → one-char string). -/
def statusStr : Status → String
  | .Matching => "O"
  | .NonMatchingMinor => "m"
  | .NonMatchingMajor => "M"
  | .NotDecompiled => "U"
  | .Wip => "W"
  | .Library => "L"

/-- The character written for a status (head of `statusStr`). -/
def charOfStatus : Status → Char
  | .Matching => 'O'
  | .NonMatchingMinor => 'm'
  | .NonMatchingMajor => 'M'
  | .NotDecompiled => 'U'
  | .Wip => 'W'
  | .Library => 'L'

/-- `parse_function_csv_entry`: arity check, then address, then (after
extracting the first character of the status field) the size, then the
status-code table.  Field evaluation order follows the source: an address
parse error wins over a size parse error, which wins over a status error. -/
def parse_function_csv_entry (record : List String) : Except Error Info :=
  match record with
  | [f0, f1, f2, f3] =>
    match parse_address f0 with
    | .error e => .error e
    | .ok addr =>
      let status_code := f1.data.head?
      match parseU32 f2 with
      | .error e => .error e
      | .ok size =>
        match status_code with
        | none => .error .missingStatusCode
        | some c =>
          match statusOfChar c with
          | none => .error (.unknownStatusCode c)
          | some status => .ok ⟨addr, size, f3, status⟩
  | _ => .error .invalidRecord

/-- The per-record loop of `get_functions_for_path`: the non-flexible csv
reader rejects a record whose arity differs from the first record's (always
4 once the header passed), then `parse_function_csv_entry` runs with the
1-based line number attached to its errors via `with_context`. -/
def parseRows : List (List String) → Nat → Except Error (List Info)
  | [], _ => .ok []
  | r :: rs, line =>
    if r.length ≠ 4 then .error .csvUnequalLengths
    else
      match parse_function_csv_entry r with
      | .error e => .error (.lineContext line e)
      | .ok entry =>
        match parseRows rs (line + 1) with
        | .error e => .error e
        | .ok entries => .ok (entry :: entries)

/-- The validation loop of `get_functions_for_path`: in entry order, bail on
the first decompiled entry with an empty name, and collect into `dups` every
non-empty name whose insertion into the seen set reports it already present. -/
def collectDup : List Info → List String → List String → Except Error (List String)
  | [], _, dups => .ok dups
  | e :: es, seen, dups =>
    if e.is_decompiled && (e.name == "") then
      .error (.missingName (e.addr ||| ADDRESS_BASE))
    else if e.name != "" then
      if e.name ∈ seen then collectDup es seen (dups ++ [e.name])
      else collectDup es (e.name :: seen) dups
    else collectDup es seen dups

/-- The tail of `get_functions_for_path` after all records are parsed. -/
def validateEntries (entries : List Info) : Except Error (List Info) :=
  match collectDup entries [] [] with
  | .error e => .error e
  | .ok dups => if dups = [] then .ok entries else .error (.duplicateNames dups)

/-- Everything `get_functions_for_path` does after the header was accepted. -/
def loadRows (rows : List (List String)) : Except Error (List Info) :=
  match parseRows rows 2 with
  | .error e => .error e
  | .ok entries => validateEntries entries

/-- `get_functions_for_path`, with the file abstracted as its record
sequence: no first record means no entries; otherwise the first record must
have 4 fields and equal `CSV_HEADER`, and the remaining records are parsed
(line numbers from 2) and then validated. -/
def get_functions_for_path (records : List (List String)) : Except Error (List Info) :=
  match records with
  | [] => .ok []
  | r :: rows =>
    if r.length ≠ 4 then .error .headerArity
    else if r ≠ CSV_HEADER then .error .wrongFormat
    else loadRows rows

/-- The lowercase hex digit characters used by `format!("{:016x}", _)`. -/
def hexCharOfVal (n : Nat) : Char :=
  if n < 10 then Char.ofNat (48 + n) else Char.ofNat (87 + n)

/-- The 16 hex digits (most significant first) of `v`; for `v < 2 ^ 64` this
is exactly what `format!("{:016x}", v)` prints. -/
def hex16digits (v : Nat) : List Char :=
  (List.range 16).map (fun i => hexCharOfVal (v / 16 ^ (15 - i) % 16))

/-- `format!("0x{:016x}", v)` for a `u64` value. -/
def hex16 (v : Nat) : String :=
  "0x" ++ String.mk (hex16digits v)

/-- Decimal digits, least significant first, with a structural fuel so the
definition reduces in the kernel; the fuel is never exhausted when
`n < fuel` since `n / 10 < n` for `n ≥ 10`. -/
def decDigitsRevFuel : Nat → Nat → List Char
  | 0, _ => []
  | fuel + 1, n =>
    if n < 10 then [Char.ofNat (48 + n)]
    else Char.ofNat (48 + n % 10) :: decDigitsRevFuel fuel (n / 10)

/-- Decimal digits of `n`, least significant first (always at least one). -/
def decDigitsRev (n : Nat) : List Char :=
  decDigitsRevFuel (n + 1) n

/-- Decimal digits of `n`, most significant first. -/
def decRepr (n : Nat) : List Char :=
  (decDigitsRev n).reverse

/-- `format!("{:06}", n)`: decimal, zero-padded on the left to width 6. -/
def pad6 (n : Nat) : String :=
  String.mk (List.replicate (6 - (decRepr n).length) '0' ++ decRepr n)

/-- The record written for one entry by `write_functions_to_path`:
`[format!("0x{:016x}", addr | ADDRESS_BASE), status code, format!("{:06}", size), name]`.
Note the absolute address on disk is the bitwise OR with the base, as in the
source. -/
def encodeInfo (f : Info) : List String :=
  [hex16 (f.addr ||| ADDRESS_BASE), statusStr f.status, pad6 f.size, f.name]

/-- The record layer of `write_functions_to_path`: the sequence of records
handed to `csv::Writer::write_record` — the header record followed by one
record per entry, in order.  The byte serialization of these records
(quoting included) is `csvWriteFile` below. -/
def write_functions_to_path (functions : List Info) : List (List String) :=
  CSV_HEADER :: functions.map encodeInfo

/-- True when `csv::Writer`'s default `QuoteStyle::Necessary` quotes a
field: it contains the quote character, the delimiter or a CR/LF byte. -/
def csvQuoteNeeded (f : String) : Bool :=
  f.data.any (fun c => c = '"' || c = ',' || c = '\n' || c = '\r')

/-- The writer's default double-quote escaping inside a quoted field. -/
def csvEscapeQuotes : List Char → List Char
  | [] => []
  | c :: cs => if c = '"' then '"' :: '"' :: csvEscapeQuotes cs else c :: csvEscapeQuotes cs

/-- One field as `csv::Writer` emits it: quoted and escaped when
necessary, verbatim otherwise. -/
def csvEscapeField (f : String) : String :=
  if csvQuoteNeeded f then
    String.mk ('"' :: csvEscapeQuotes f.data ++ ['"'])
  else f

/-- Fields of one record joined with the `,` delimiter. -/
def intercalateComma : List (List Char) → List Char
  | [] => []
  | [f] => f
  | f :: fs => f ++ ',' :: intercalateComma fs

/-- The bytes `csv::Writer` produces for a record sequence: each record's
escaped fields joined by the delimiter, each record ended by `\n`. -/
def csvWriteFile (records : List (List String)) : String :=
  String.mk
    ((records.map
      (fun r => intercalateComma (r.map (fun f => (csvEscapeField f).data)) ++ ['\n'])).flatten)

/-- `write_functions_to_path` down to the bytes written into the file. -/
def write_functions_file (functions : List Info) : String :=
  csvWriteFile (write_functions_to_path functions)

/-- Fields of one record line, split on the delimiter with quoting
disabled (quote bytes are ordinary characters, as in the source's
`ReaderBuilder::quoting(false)`). -/
def splitFieldsCh : List Char → List (List Char)
  | [] => [[]]
  | c :: rest =>
    if c = ',' then [] :: splitFieldsCh rest
    else
      match splitFieldsCh rest with
      | [] => [[c]]
      | f :: fs => (c :: f) :: fs

/-- Record lines of a file under the reader's default `Terminator::CRLF`:
a record ends at `\r\n`, `\r` or `\n`.  Splitting at every `\r` and `\n`
separately produces one extra empty line for each `\r\n` pair compared to
CRLF-aware splitting; the blank-line filter of `csvReadRecords` removes
exactly those, so after the filter the two splittings give the same
records. -/
def splitLinesCh : List Char → List (List Char)
  | [] => [[]]
  | c :: rest =>
    if c = '\n' ∨ c = '\r' then [] :: splitLinesCh rest
    else
      match splitLinesCh rest with
      | [] => [[c]]
      | l :: ls => (c :: l) :: ls

/-- The record sequence `csv::Reader` (quoting disabled) reads from a
file's bytes: records split at CRLF/CR/LF, blank lines skipped, fields
split on the delimiter. -/
def csvReadRecords (s : String) : List (List String) :=
  ((splitLinesCh s.data).filter (fun l => l != [])).map
    (fun l => (splitFieldsCh l).map String.mk)

/-- `get_functions_for_path` from the file's bytes: the reader's byte
layer followed by the record-level loader. -/
def get_functions_file (s : String) : Except Error (List Info) :=
  get_functions_for_path (csvReadRecords s)

/-- `demangle_str`, with the external `cpp_demangle` crate abstracted as an
oracle (`none` = `Symbol::new` or `demangle` failed).  The `_Z` marker check
is the source's. -/
def demangle_str (oracle : String → Option String) (name : String) : Option String :=
  if ('_' :: 'Z' :: []).isPrefixOf name.data then oracle name else none

/-- The pattern list occurs as a contiguous infix of the other list. -/
def listContains (pat : List Char) : List Char → Bool
  | [] => pat.isPrefixOf []
  | c :: rest => pat.isPrefixOf (c :: rest) || listContains pat rest

/-- Rust `str::contains`: the pattern occurs as a contiguous substring. -/
def strContains (hay pat : String) : Bool :=
  listContains pat.data hay.data

/-- The fuzzy predicate of `find_function_fuzzy`'s second phase:
`demangle_str(&function.name).unwrap_or_else(|_| "".to_string()).contains(name)`. -/
def fuzzyMatch (oracle : String → Option String) (query : String) (f : Info) : Bool :=
  strContains ((demangle_str oracle f.name).getD "") query

/-- `find_function_fuzzy`: rayon's `find_first` returns the match with the
lowest index, i.e. `List.find?`; the fuzzy scan runs only when the exact
scan found nothing. -/
def find_function_fuzzy (oracle : String → Option String)
    (functions : List Info) (name : String) : Option Info :=
  match functions.find? (fun f => f.name == name) with
  | some f => some f
  | none => functions.find? (fuzzyMatch oracle name)

/-- `make_known_function_map`, as the association list of (addr, entry) for
named entries (insertion order; later inserts shadow earlier ones in the map). -/
def make_known_function_map (functions : List Info) : List (Nat × Info) :=
  functions.foldl
    (fun m f => if f.name = "" then m else m ++ [(f.addr, f)]) []

/-- The non-empty names of the entries, in order. -/
def nonemptyNames (entries : List Info) : List String :=
  (entries.map Info.name).filter (fun s => s != "")

/-- A lowercase hexadecimal digit character. -/
def isLowerHexDigit (c : Char) : Bool :=
  ('0' ≤ c && c ≤ '9') || ('a' ≤ c && c ≤ 'f')

/-- A demangling oracle that always fails (no name demangles). -/
def demangleOracleNone : String → Option String :=
  fun _ => none

/-- A demangling oracle that demangles exactly the symbol `_Z3fooi`. -/
def demangleOracleFoo : String → Option String :=
  fun s => if s = "_Z3fooi" then some "foo(int)" else none

deriving instance DecidableEq for Except



/-! Helper lemmas: hex formatting and parsing are mutually inverse. -/

theorem hexValOfChar_hexCharOfVal : ∀ d, d < 16 → hexValOfChar (hexCharOfVal d) = some d := by
  decide

theorem hexCharOfVal_ne_plus : ∀ d, d < 16 → hexCharOfVal d ≠ '+' := by
  decide

theorem parseHexDigits_pad (k : Nat) :
    ∀ n acc, parseHexDigits ((List.range k).map (fun i => hexCharOfVal (n / 16 ^ (k - 1 - i) % 16))) acc
      = some (acc * 16 ^ k + n % 16 ^ k) := by
  induction k with
  | zero => intro n acc; simp [parseHexDigits, Nat.mod_one]
  | succ k ih =>
    intro n acc
    rw [List.range_succ_eq_map]
    simp only [List.map_cons, List.map_map]
    have hmap : (List.range k).map ((fun i => hexCharOfVal (n / 16 ^ (k + 1 - 1 - i) % 16)) ∘ Nat.succ)
        = (List.range k).map (fun i => hexCharOfVal (n / 16 ^ (k - 1 - i) % 16)) := by
      apply List.map_congr_left
      intro i _
      simp only [Function.comp_apply]
      have h2 : k + 1 - 1 - Nat.succ i = k - 1 - i := by omega
      rw [h2]
    have h0 : k + 1 - 1 - 0 = k := by omega
    rw [h0, hmap]
    have hdig : n / 16 ^ k % 16 < 16 := Nat.mod_lt _ (by omega)
    simp only [parseHexDigits, hexValOfChar_hexCharOfVal _ hdig]
    rw [ih]
    congr 1
    rw [show n % 16 ^ (k + 1) = n % 16 ^ k + 16 ^ k * (n / 16 ^ k % 16) from Nat.mod_pow_succ,
      pow_succ]
    ring

theorem hex16_data (v : Nat) : (hex16 v).data = '0' :: 'x' :: hex16digits v := by
  simp [hex16, String.data_append]

theorem hex16digits_cons (v : Nat) :
    hex16digits v = hexCharOfVal (v / 16 ^ 15 % 16)
      :: (List.range 15).map ((fun i => hexCharOfVal (v / 16 ^ (15 - i) % 16)) ∘ Nat.succ) := by
  unfold hex16digits
  rw [show (16 : Nat) = 15 + 1 from rfl, List.range_succ_eq_map]
  simp only [List.map_cons, List.map_map]

theorem fromStrRadix16_cons {v : Nat} (c : Char) (cs : List Char) (hc : c ≠ '+')
    (hv : parseHexDigits (c :: cs) 0 = some v) (h64 : v < 2 ^ 64) :
    fromStrRadix16 (c :: cs) = .ok v := by
  simp only [fromStrRadix16, List.head?_cons, List.tail_cons]
  rw [if_neg (fun h => hc (Option.some.inj h)), if_neg (by simp), hv]
  show (if v < 2 ^ 64 then (Except.ok v : Except Error Nat) else .error .parseInt) = .ok v
  rw [if_pos h64]

theorem parse_base_16_hex16 (v : Nat) (hv : v < 2 ^ 64) : parse_base_16 (hex16 v) = .ok v := by
  have hdig : v / 16 ^ 15 % 16 < 16 := Nat.mod_lt _ (by omega)
  have hparse : parseHexDigits (hex16digits v) 0 = some v := by
    have heq : hex16digits v
        = (List.range 16).map (fun i => hexCharOfVal (v / 16 ^ (16 - 1 - i) % 16)) := rfl
    rw [heq, parseHexDigits_pad]
    have h1616 : (16 : Nat) ^ 16 = 2 ^ 64 := by norm_num
    rw [Nat.zero_mul, Nat.zero_add, h1616, Nat.mod_eq_of_lt hv]
  have hstep : fromStrRadix16 (hex16digits v) = .ok v := by
    rw [hex16digits_cons] at hparse ⊢
    exact fromStrRadix16_cons _ _ (hexCharOfVal_ne_plus _ hdig) hparse hv
  simp only [parse_base_16, hex16_data]
  exact hstep

theorem parse_address_hex16 (v : Nat) (hv : v < 2 ^ 64) :
    parse_address (hex16 v) = .ok ((v + 2 ^ 64 - ADDRESS_BASE) % 2 ^ 64) := by
  rw [parse_address, parse_base_16_hex16 v hv]
  rfl

/-! Helper lemmas: disjoint bitwise or is addition. -/

theorem lor_eq_add_of_land_eq_zero (a : Nat) :
    ∀ b, a &&& b = 0 → a ||| b = a + b := by
  induction a using Nat.binaryRec with
  | z => intro b _; simp
  | f a0 a ih =>
    intro b hab
    rw [← Nat.bit_testBit_zero_shiftRight_one b] at hab ⊢
    rw [Nat.land_bit] at hab
    rw [Nat.lor_bit]
    rcases Nat.bit_eq_zero_iff.mp hab with ⟨hland, hbool⟩
    rw [ih _ hland]
    rw [Nat.bit_val, Nat.bit_val, Nat.bit_val]
    have htn : (a0 || Nat.testBit b 0).toNat = a0.toNat + (Nat.testBit b 0).toNat := by
      cases a0 <;> cases hb : Nat.testBit b 0 <;> simp_all
    omega

theorem addr_roundtrip (a : Nat) (hdisj : a &&& ADDRESS_BASE = 0) (ha : a < 2 ^ 64) :
    parse_address (hex16 (a ||| ADDRESS_BASE)) = .ok a := by
  have hbase : ADDRESS_BASE < 2 ^ 64 := by norm_num [ADDRESS_BASE]
  have hlt : a ||| ADDRESS_BASE < 2 ^ 64 := Nat.or_lt_two_pow ha hbase
  rw [parse_address_hex16 (a ||| ADDRESS_BASE) hlt]
  rw [lor_eq_add_of_land_eq_zero _ _ hdisj]
  rw [show a + ADDRESS_BASE + 2 ^ 64 - ADDRESS_BASE = a + 2 ^ 64 by omega,
    Nat.add_mod_right, Nat.mod_eq_of_lt ha]

/-! Helper lemmas: decimal formatting and parsing are mutually inverse. -/

theorem decValOfChar_digit : ∀ d, d < 10 → decValOfChar (Char.ofNat (48 + d)) = some d := by
  decide

theorem digit_ne_plus : ∀ d, d < 10 → Char.ofNat (48 + d) ≠ '+' := by
  decide

theorem parseDecDigits_append (l₁ l₂ : List Char) :
    ∀ acc, parseDecDigits (l₁ ++ l₂) acc
      = match parseDecDigits l₁ acc with
        | some v => parseDecDigits l₂ v
        | none => none := by
  induction l₁ with
  | nil => intro acc; rfl
  | cons c cs ih =>
    intro acc
    cases h : decValOfChar c with
    | none => simp [parseDecDigits, h]
    | some d => simp [parseDecDigits, h, ih]

theorem parseDec_decDigitsRevFuel :
    ∀ fuel n acc, n < fuel →
      parseDecDigits (decDigitsRevFuel fuel n).reverse acc
        = some (acc * 10 ^ (decDigitsRevFuel fuel n).length + n) := by
  intro fuel
  induction fuel with
  | zero => intro n acc h; omega
  | succ fuel ih =>
    intro n acc h
    by_cases h10 : n < 10
    · simp only [decDigitsRevFuel, if_pos h10]
      simp [parseDecDigits, decValOfChar_digit n h10]
    · simp only [decDigitsRevFuel, if_neg h10]
      rw [List.reverse_cons, parseDecDigits_append]
      have hdiv : n / 10 < fuel := by
        have := Nat.div_lt_self (show 0 < n by omega) (show 1 < 10 by omega)
        omega
      rw [ih (n / 10) acc hdiv]
      have hm : n % 10 < 10 := Nat.mod_lt _ (by omega)
      simp only [parseDecDigits, decValOfChar_digit _ hm, List.length_cons]
      have harith : (acc * 10 ^ (decDigitsRevFuel fuel (n / 10)).length + n / 10) * 10 + n % 10
          = acc * 10 ^ ((decDigitsRevFuel fuel (n / 10)).length + 1) + n := by
        rw [pow_succ]
        have h1 : (acc * 10 ^ (decDigitsRevFuel fuel (n / 10)).length + n / 10) * 10
            = acc * (10 ^ (decDigitsRevFuel fuel (n / 10)).length * 10) + n / 10 * 10 := by
          ring
        rw [h1, Nat.add_assoc]
        have h2 : n / 10 * 10 + n % 10 = n := by omega
        rw [h2]
      rw [harith]

theorem parseDec_decRepr (n acc : Nat) :
    parseDecDigits (decRepr n) acc = some (acc * 10 ^ (decRepr n).length + n) := by
  unfold decRepr decDigitsRev
  rw [parseDec_decDigitsRevFuel (n + 1) n acc (by omega), List.length_reverse]

theorem decRepr_ne_nil (n : Nat) : decRepr n ≠ [] := by
  unfold decRepr decDigitsRev decDigitsRevFuel
  split <;> simp

theorem decDigitsRevFuel_mem :
    ∀ fuel n c, c ∈ decDigitsRevFuel fuel n → ∃ d, d < 10 ∧ c = Char.ofNat (48 + d) := by
  intro fuel
  induction fuel with
  | zero => intro n c hc; simp [decDigitsRevFuel] at hc
  | succ fuel ih =>
    intro n c hc
    by_cases h10 : n < 10
    · simp only [decDigitsRevFuel, if_pos h10, List.mem_singleton] at hc
      exact ⟨n, h10, hc⟩
    · simp only [decDigitsRevFuel, if_neg h10, List.mem_cons] at hc
      rcases hc with hc | hc
      · exact ⟨n % 10, Nat.mod_lt _ (by omega), hc⟩
      · exact ih _ _ hc

theorem decRepr_mem_ne_plus (n : Nat) (c : Char) (hc : c ∈ decRepr n) : c ≠ '+' := by
  rw [decRepr, decDigitsRev, List.mem_reverse] at hc
  obtain ⟨d, hd, rfl⟩ := decDigitsRevFuel_mem _ _ _ hc
  exact digit_ne_plus d hd

theorem parseDecDigits_zeros : ∀ k, parseDecDigits (List.replicate k '0') 0 = some 0 := by
  intro k
  induction k with
  | zero => rfl
  | succ k ih => simpa [List.replicate_succ, parseDecDigits, decValOfChar] using ih

theorem pad6_data (n : Nat) :
    (pad6 n).data = List.replicate (6 - (decRepr n).length) '0' ++ decRepr n := rfl

theorem pad6_head_ne_plus (n : Nat) : (pad6 n).data.head? ≠ some '+' := by
  rw [pad6_data]
  cases hke : 6 - (decRepr n).length with
  | zero =>
    rw [List.replicate_zero, List.nil_append]
    obtain ⟨c, rest, hcr⟩ := List.exists_cons_of_ne_nil (decRepr_ne_nil n)
    rw [hcr, List.head?_cons]
    have hmem : c ∈ decRepr n := by rw [hcr]; exact List.mem_cons_self _ _
    simpa using decRepr_mem_ne_plus n c hmem
  | succ k =>
    rw [List.replicate_succ, List.cons_append, List.head?_cons]
    simp

theorem parseU32_pad6 (n : Nat) (h : n < 2 ^ 32) : parseU32 (pad6 n) = .ok n := by
  have hparse : parseDecDigits (pad6 n).data 0 = some n := by
    rw [pad6_data, parseDecDigits_append, parseDecDigits_zeros]
    show parseDecDigits (decRepr n) 0 = some n
    rw [parseDec_decRepr, Nat.zero_mul, Nat.zero_add]
  simp only [parseU32]
  rw [if_neg (pad6_head_ne_plus n)]
  rw [if_neg (by simp [pad6_data, decRepr_ne_nil])]
  rw [hparse]
  show (if n < 2 ^ 32 then (Except.ok n : Except Error Nat) else .error .parseInt) = .ok n
  rw [if_pos h]

/-! Helper lemmas: the status tables. -/

theorem statusStr_data : ∀ st, (statusStr st).data = [charOfStatus st] := by
  intro st; cases st <;> rfl

theorem statusOfChar_charOfStatus : ∀ st, statusOfChar (charOfStatus st) = some st := by
  intro st; cases st <;> rfl

/-! Helper lemmas: one entry round-trips through encode and decode. -/

theorem encodeInfo_length (e : Info) : (encodeInfo e).length = 4 := rfl

theorem parse_entry_encode (e : Info) (hd : e.addr &&& ADDRESS_BASE = 0)
    (ha : e.addr < 2 ^ 64) (hs : e.size < 2 ^ 32) :
    parse_function_csv_entry (encodeInfo e) = .ok e := by
  obtain ⟨a, sz, nm, st⟩ := e
  simp only [Info.mk.injEq] at *
  simp only [encodeInfo, parse_function_csv_entry]
  rw [addr_roundtrip a hd ha]
  rw [parseU32_pad6 sz hs]
  simp [statusStr_data, statusOfChar_charOfStatus]

theorem parseRows_encode (entries : List Info)
    (h : ∀ e ∈ entries, e.addr &&& ADDRESS_BASE = 0 ∧ e.addr < 2 ^ 64 ∧ e.size < 2 ^ 32) :
    ∀ line, parseRows (entries.map encodeInfo) line = .ok entries := by
  induction entries with
  | nil => intro line; rfl
  | cons e es ih =>
    intro line
    obtain ⟨h1, h2, h3⟩ := h e (List.mem_cons_self e es)
    simp only [List.map_cons, parseRows]
    rw [if_neg (by simp [encodeInfo_length])]
    rw [parse_entry_encode e h1 h2 h3]
    rw [ih (fun x hx => h x (List.mem_cons_of_mem _ hx)) (line + 1)]

/-! Helper lemmas: the validation loop (missing names and duplicates). -/

theorem nonemptyNames_cons_empty (e : Info) (es : List Info) (h : e.name = "") :
    nonemptyNames (e :: es) = nonemptyNames es := by
  simp [nonemptyNames, h]

theorem nonemptyNames_cons (e : Info) (es : List Info) (h : e.name ≠ "") :
    nonemptyNames (e :: es) = e.name :: nonemptyNames es := by
  simp [nonemptyNames, h]

theorem empty_not_mem_nonemptyNames (entries : List Info) : "" ∉ nonemptyNames entries := by
  simp [nonemptyNames, List.mem_filter]

theorem collectDup_count :
    ∀ (entries : List Info) (seen dups : List String),
      (∀ e ∈ entries, e.is_decompiled = true → e.name ≠ "") →
      ∃ extra, collectDup entries seen dups = .ok (dups ++ extra) ∧
        ∀ nm : String, extra.count nm =
          if nm = "" then 0
          else if nm ∈ seen then (nonemptyNames entries).count nm
          else (nonemptyNames entries).count nm - 1 := by
  intro entries
  induction entries with
  | nil =>
    intro seen dups _
    refine ⟨[], by simp [collectDup], ?_⟩
    intro nm
    simp only [List.count_nil, nonemptyNames, List.map_nil, List.filter_nil]
    split_ifs <;> simp
  | cons e es ih =>
    intro seen dups hok
    have hxe := hok e (List.mem_cons_self e es)
    have hok' : ∀ x ∈ es, x.is_decompiled = true → x.name ≠ "" :=
      fun x hx => hok x (List.mem_cons_of_mem _ hx)
    have hguard : (e.is_decompiled && (e.name == "")) = false := by
      cases hd : e.is_decompiled <;> simp_all
    by_cases hname : e.name = ""
    · obtain ⟨extra, hrun, hcount⟩ := ih seen dups hok'
      refine ⟨extra, ?_, ?_⟩
      · simp only [collectDup, hguard, Bool.false_eq_true, if_false]
        rw [if_neg (by simp [hname])]
        exact hrun
      · intro nm
        rw [hcount nm, nonemptyNames_cons_empty e es hname]
    · by_cases hmem : e.name ∈ seen
      · obtain ⟨extra, hrun, hcount⟩ := ih seen (dups ++ [e.name]) hok'
        refine ⟨e.name :: extra, ?_, ?_⟩
        · simp only [collectDup, hguard, Bool.false_eq_true, if_false]
          rw [if_pos (by simp [hname]), if_pos hmem, hrun, List.append_assoc]
          rfl
        · intro nm
          rw [List.count_cons, hcount nm, nonemptyNames_cons e es hname, List.count_cons]
          by_cases h0 : nm = ""
          · have hb : (e.name == nm) = false :=
              beq_eq_false_iff_ne.mpr (by rw [h0]; exact hname)
            simp [h0, hb, hname]
          · by_cases heq : nm = e.name
            · have hb : (e.name == nm) = true := beq_iff_eq.mpr heq.symm
              have hms : nm ∈ seen := heq ▸ hmem
              simp [h0, hb, hms]
            · have hb : (e.name == nm) = false :=
                beq_eq_false_iff_ne.mpr (fun h => heq h.symm)
              simp [hb, h0]
      · obtain ⟨extra, hrun, hcount⟩ := ih (e.name :: seen) dups hok'
        refine ⟨extra, ?_, ?_⟩
        · simp only [collectDup, hguard, Bool.false_eq_true, if_false]
          rw [if_pos (by simp [hname]), if_neg hmem]
          exact hrun
        · intro nm
          rw [hcount nm, nonemptyNames_cons e es hname, List.count_cons]
          by_cases h0 : nm = ""
          · simp [h0]
          · rw [if_neg h0, if_neg h0]
            by_cases heq : nm = e.name
            · have hb : (e.name == nm) = true := beq_iff_eq.mpr heq.symm
              have hmm : nm ∈ e.name :: seen := by rw [heq]; exact List.mem_cons_self _ _
              rw [if_pos hmm, if_neg (by rw [heq]; exact hmem)]
              simp [hb]
            · have hbeq : (e.name == nm) = false :=
                beq_eq_false_iff_ne.mpr (fun h => heq h.symm)
              have hmm : nm ∈ e.name :: seen ↔ nm ∈ seen := by
                simp [List.mem_cons, heq]
              simp only [hbeq, Bool.false_eq_true, if_false, Nat.add_zero]
              rw [if_congr hmm rfl rfl]

theorem validateEntries_ok (entries : List Info)
    (hok : ∀ e ∈ entries, e.is_decompiled = true → e.name ≠ "")
    (hnodup : (nonemptyNames entries).Nodup) :
    validateEntries entries = .ok entries := by
  obtain ⟨extra, hrun, hcount⟩ := collectDup_count entries [] [] hok
  have hextra : extra = [] := by
    rw [List.eq_nil_iff_forall_not_mem]
    intro nm hmem
    have hpos : 0 < extra.count nm := List.count_pos_iff.mpr hmem
    have := hcount nm
    have hle := List.nodup_iff_count_le_one.mp hnodup nm
    by_cases h0 : nm = ""
    · subst h0
      rw [if_pos rfl] at this
      omega
    · rw [if_neg h0, if_neg (by simp)] at this
      omega
  rw [validateEntries, hrun, hextra]
  simp

theorem validateEntries_dup (entries : List Info)
    (hok : ∀ e ∈ entries, e.is_decompiled = true → e.name ≠ "")
    (n : String) (hn : 2 ≤ (nonemptyNames entries).count n) :
    ∃ D, validateEntries entries = .error (.duplicateNames D) ∧
      ∀ nm, D.count nm = (nonemptyNames entries).count nm - 1 := by
  obtain ⟨extra, hrun, hcount⟩ := collectDup_count entries [] [] hok
  have hcnt : ∀ nm, extra.count nm = (nonemptyNames entries).count nm - 1 := by
    intro nm
    rw [hcount nm]
    by_cases h0 : nm = ""
    · subst h0
      have := empty_not_mem_nonemptyNames entries
      rw [if_pos rfl, List.count_eq_zero_of_not_mem this]
    · rw [if_neg h0, if_neg (by simp)]
  have hne : extra ≠ [] := by
    intro h0
    have := hcnt n
    rw [h0, List.count_nil] at this
    omega
  refine ⟨extra, ?_, hcnt⟩
  rw [validateEntries, hrun]
  simp only [List.nil_append]
  rw [if_neg hne]

theorem collectDup_missing :
    ∀ (pre : List Info) (e : Info) (post : List Info) (seen dups : List String),
      (∀ x ∈ pre, x.is_decompiled = true → x.name ≠ "") →
      e.is_decompiled = true → e.name = "" →
      collectDup (pre ++ e :: post) seen dups
        = .error (.missingName (e.addr ||| ADDRESS_BASE)) := by
  intro pre
  induction pre with
  | nil =>
    intro e post seen dups _ hdec hname
    simp [collectDup, hdec, hname]
  | cons x xs ih =>
    intro e post seen dups hok hdec hname
    have hx := hok x (List.mem_cons_self x xs)
    have hok' : ∀ y ∈ xs, y.is_decompiled = true → y.name ≠ "" :=
      fun y hy => hok y (List.mem_cons_of_mem _ hy)
    have hguard : (x.is_decompiled && (x.name == "")) = false := by
      cases hd : x.is_decompiled <;> simp_all
    rw [List.cons_append]
    simp only [collectDup, hguard, Bool.false_eq_true, if_false]
    by_cases hxe : x.name = ""
    · rw [if_neg (by simp [hxe])]
      exact ih e post seen dups hok' hdec hname
    · rw [if_pos (by simp [hxe])]
      by_cases hm : x.name ∈ seen
      · rw [if_pos hm]
        exact ih e post seen _ hok' hdec hname
      · rw [if_neg hm]
        exact ih e post _ dups hok' hdec hname

theorem validateEntries_missing (pre : List Info) (e : Info) (post : List Info)
    (hpre : ∀ x ∈ pre, x.is_decompiled = true → x.name ≠ "")
    (hdec : e.is_decompiled = true) (hname : e.name = "") :
    validateEntries (pre ++ e :: post) = .error (.missingName (e.addr ||| ADDRESS_BASE)) := by
  rw [validateEntries, collectDup_missing pre e post [] [] hpre hdec hname]

/-! Helper lemmas: the loader pipeline and `List.find?`. -/

theorem parseRows_length :
    ∀ (rows : List (List String)) (line : Nat) (entries : List Info),
      parseRows rows line = .ok entries → entries.length = rows.length := by
  intro rows
  induction rows with
  | nil => intro line entries h; cases h; rfl
  | cons r rs ih =>
    intro line entries h
    rw [parseRows] at h
    by_cases h4 : r.length ≠ 4
    · rw [if_pos h4] at h; cases h
    · rw [if_neg h4] at h
      cases hp : parse_function_csv_entry r with
      | error e => rw [hp] at h; cases h
      | ok entry =>
        rw [hp] at h
        cases hr : parseRows rs (line + 1) with
        | error e => rw [hr] at h; cases h
        | ok es =>
          rw [hr] at h
          cases h
          simp [ih (line + 1) es hr]

theorem validateEntries_ok_eq (entries l : List Info)
    (h : validateEntries entries = .ok l) : l = entries := by
  rw [validateEntries] at h
  cases hc : collectDup entries [] [] with
  | error e => rw [hc] at h; cases h
  | ok dups =>
    rw [hc] at h
    have h' : (if dups = [] then (Except.ok entries : Except Error (List Info))
        else .error (.duplicateNames dups)) = .ok l := h
    by_cases hd : dups = []
    · rw [if_pos hd] at h'; cases h'; rfl
    · rw [if_neg hd] at h'; cases h'

theorem get_functions_header (rows : List (List String)) :
    get_functions_for_path (CSV_HEADER :: rows) = loadRows rows := by
  simp only [get_functions_for_path]
  rw [if_neg (by decide), if_neg (by simp)]

theorem find?_eq_some_split {α : Type} (p : α → Bool) :
    ∀ (l : List α) (a : α), l.find? p = some a ↔
      p a = true ∧ ∃ l₁ l₂, l = l₁ ++ a :: l₂ ∧ ∀ x ∈ l₁, p x = false := by
  intro l
  induction l with
  | nil => intro a; simp
  | cons x xs ih =>
    intro a
    by_cases hx : p x = true
    · rw [List.find?_cons_of_pos _ hx]
      constructor
      · intro h
        cases Option.some.inj h
        exact ⟨hx, [], xs, rfl, by simp⟩
      · rintro ⟨hpa, l₁, l₂, heq, hall⟩
        cases l₁ with
        | nil =>
          simp only [List.nil_append, List.cons.injEq] at heq
          rw [heq.1]
        | cons y ys =>
          simp only [List.cons_append, List.cons.injEq] at heq
          have := hall y (List.mem_cons_self _ _)
          rw [← heq.1] at this
          rw [this] at hx
          cases hx
    · rw [List.find?_cons_of_neg _ hx]
      rw [ih a]
      constructor
      · rintro ⟨hpa, l₁, l₂, rfl, hall⟩
        refine ⟨hpa, x :: l₁, l₂, rfl, ?_⟩
        intro z hz
        rcases List.mem_cons.mp hz with rfl | hz'
        · cases hpz : p z
          · rfl
          · exact absurd hpz hx
        · exact hall z hz'
      · rintro ⟨hpa, l₁, l₂, heq, hall⟩
        cases l₁ with
        | nil =>
          simp only [List.nil_append, List.cons.injEq] at heq
          rw [← heq.1] at hpa
          exact absurd hpa hx
        | cons y ys =>
          simp only [List.cons_append, List.cons.injEq] at heq
          exact ⟨hpa, ys, l₂, heq.2, fun z hz => hall z (List.mem_cons_of_mem _ hz)⟩

/-! Helper lemmas: the csv byte layer inverts on clean fields. -/

theorem splitFieldsCh_no_comma (f : List Char) (hf : ∀ c ∈ f, c ≠ ',') :
    splitFieldsCh f = [f] := by
  induction f with
  | nil => rfl
  | cons c cs ih =>
    have hc : c ≠ ',' := hf c (List.mem_cons_self _ _)
    have ih' := ih (fun x hx => hf x (List.mem_cons_of_mem _ hx))
    simp only [splitFieldsCh]
    rw [if_neg hc, ih']

theorem splitFieldsCh_step (f rest : List Char) (hf : ∀ c ∈ f, c ≠ ',') :
    splitFieldsCh (f ++ ',' :: rest) = f :: splitFieldsCh rest := by
  induction f with
  | nil =>
    simp [splitFieldsCh]
  | cons c cs ih =>
    have hc : c ≠ ',' := hf c (List.mem_cons_self _ _)
    have ih' := ih (fun x hx => hf x (List.mem_cons_of_mem _ hx))
    simp only [List.cons_append, splitFieldsCh, List.append_eq]
    rw [if_neg hc, ih']

theorem splitFields_intercalate (fields : List (List Char)) (hne : fields ≠ [])
    (h : ∀ f ∈ fields, ∀ c ∈ f, c ≠ ',') :
    splitFieldsCh (intercalateComma fields) = fields := by
  induction fields with
  | nil => exact absurd rfl hne
  | cons f fs ih =>
    cases fs with
    | nil =>
      rw [show intercalateComma [f] = f from rfl]
      exact splitFieldsCh_no_comma f (h f (List.mem_cons_self _ _))
    | cons g gs =>
      rw [show intercalateComma (f :: g :: gs) = f ++ ',' :: intercalateComma (g :: gs) from rfl]
      rw [splitFieldsCh_step f _ (h f (List.mem_cons_self _ _))]
      rw [ih (by simp) (fun x hx => h x (List.mem_cons_of_mem _ hx))]

theorem splitLinesCh_step (line rest : List Char)
    (hl : ∀ c ∈ line, c ≠ '\n' ∧ c ≠ '\r') :
    splitLinesCh (line ++ '\n' :: rest) = line :: splitLinesCh rest := by
  induction line with
  | nil =>
    simp [splitLinesCh]
  | cons c cs ih =>
    obtain ⟨h1, h2⟩ := hl c (List.mem_cons_self _ _)
    simp only [List.cons_append, splitLinesCh, List.append_eq]
    rw [if_neg (by simp [h1, h2]), ih (fun x hx => hl x (List.mem_cons_of_mem _ hx))]

theorem mem_intercalateComma :
    ∀ (fields : List (List Char)) (c : Char), c ∈ intercalateComma fields →
      (∃ f ∈ fields, c ∈ f) ∨ c = ',' := by
  intro fields
  induction fields with
  | nil => intro c hc; exact absurd hc (by simp [intercalateComma])
  | cons f fs ih =>
    intro c hc
    cases fs with
    | nil => exact Or.inl ⟨f, List.mem_cons_self _ _, hc⟩
    | cons g gs =>
      rw [show intercalateComma (f :: g :: gs) = f ++ ',' :: intercalateComma (g :: gs)
        from rfl] at hc
      rcases List.mem_append.mp hc with hf | hrest
      · exact Or.inl ⟨f, List.mem_cons_self _ _, hf⟩
      · rcases List.mem_cons.mp hrest with rfl | htail
        · exact Or.inr rfl
        · rcases ih c htail with ⟨fd, hfd, hcf⟩ | hcomma
          · exact Or.inl ⟨fd, List.mem_cons_of_mem _ hfd, hcf⟩
          · exact Or.inr hcomma

theorem intercalateComma_ne_nil (f g : List Char) (gs : List (List Char)) :
    intercalateComma (f :: g :: gs) ≠ [] := by
  rw [show intercalateComma (f :: g :: gs) = f ++ ',' :: intercalateComma (g :: gs) from rfl]
  simp

theorem csvEscapeField_clean (f : String) (h : csvQuoteNeeded f = false) :
    csvEscapeField f = f := by
  rw [csvEscapeField, if_neg (by simp [h])]

theorem csvQuoteNeeded_spec (f : String) (h : csvQuoteNeeded f = false) :
    ∀ c ∈ f.data, ¬c = '"' ∧ ¬c = ',' ∧ ¬c = '\n' ∧ ¬c = '\r' := by
  intro c hc
  rw [csvQuoteNeeded] at h
  have hnc := List.any_eq_false.mp h c hc
  simp only [Bool.or_eq_true, decide_eq_true_eq, not_or] at hnc
  obtain ⟨⟨⟨ha, hb⟩, hc'⟩, hd⟩ := hnc
  exact ⟨ha, hb, hc', hd⟩

theorem csvRead_csvWrite (records : List (List String))
    (h : ∀ r ∈ records, 2 ≤ r.length ∧ ∀ f ∈ r, csvQuoteNeeded f = false) :
    csvReadRecords (csvWriteFile records) = records := by
  induction records with
  | nil => rfl
  | cons r rs ih =>
    obtain ⟨hlen, hfields⟩ := h r (List.mem_cons_self _ _)
    have ih' := ih (fun x hx => h x (List.mem_cons_of_mem _ hx))
    have hesc : r.map (fun f => (csvEscapeField f).data) = r.map String.data := by
      apply List.map_congr_left
      intro f hf
      rw [csvEscapeField_clean f (hfields f hf)]
    have hdata : (csvWriteFile (r :: rs)).data
        = intercalateComma (r.map String.data) ++ '\n' :: (csvWriteFile rs).data := by
      show ((r :: rs).map
          (fun rr => intercalateComma (rr.map (fun f => (csvEscapeField f).data))
            ++ ['\n'])).flatten = _
      rw [List.map_cons, List.flatten_cons, hesc, List.append_assoc]
      rfl
    have hlc : ∀ c ∈ intercalateComma (r.map String.data), c ≠ '\n' ∧ c ≠ '\r' := by
      intro c hc
      rcases mem_intercalateComma _ c hc with ⟨fd, hfd, hcf⟩ | rfl
      · obtain ⟨f, hf, rfl⟩ := List.mem_map.mp hfd
        have hs := csvQuoteNeeded_spec f (hfields f hf) c hcf
        exact ⟨hs.2.2.1, hs.2.2.2⟩
      · exact ⟨by decide, by decide⟩
    have hnocomma : ∀ fd ∈ r.map String.data, ∀ c ∈ fd, c ≠ ',' := by
      intro fd hfd c hcf
      obtain ⟨f, hf, rfl⟩ := List.mem_map.mp hfd
      exact (csvQuoteNeeded_spec f (hfields f hf) c hcf).2.1
    have hrne : r ≠ [] := by
      intro h0
      rw [h0] at hlen
      simp at hlen
    obtain ⟨f0, r1, hr0⟩ := List.exists_cons_of_ne_nil hrne
    have hr1ne : r1 ≠ [] := by
      intro h0
      rw [hr0, h0] at hlen
      simp at hlen
    obtain ⟨f1, r2, hr1⟩ := List.exists_cons_of_ne_nil hr1ne
    have hlne : intercalateComma (r.map String.data) ≠ [] := by
      rw [hr0, hr1]
      simp only [List.map_cons]
      exact intercalateComma_ne_nil _ _ _
    have hmk : (r.map String.data).map String.mk = r := by
      rw [List.map_map]
      conv_rhs => rw [← List.map_id r]
      apply List.map_congr_left
      intro f _
      rfl
    have htail :
        ((splitLinesCh (csvWriteFile rs).data).filter (fun l => l != [])).map
          (fun l => (splitFieldsCh l).map String.mk) = rs := ih'
    simp only [csvReadRecords, hdata]
    rw [splitLinesCh_step _ _ hlc]
    simp only [List.filter_cons]
    rw [if_pos (by simp [hlne])]
    simp only [List.map_cons]
    rw [splitFields_intercalate (r.map String.data) (by rw [hr0]; simp) hnocomma, hmk, htail]

/-! Helper lemmas: the fields the writer emits never need quoting. -/

theorem csvQuoteNeeded_hex16 (v : Nat) : csvQuoteNeeded (hex16 v) = false := by
  rw [csvQuoteNeeded, hex16_data]
  apply List.any_eq_false.mpr
  intro c hc
  rcases List.mem_cons.mp hc with rfl | hc
  · decide
  rcases List.mem_cons.mp hc with rfl | hc
  · decide
  simp only [hex16digits, List.mem_map, List.mem_range] at hc
  obtain ⟨i, _, rfl⟩ := hc
  have hd : v / 16 ^ (15 - i) % 16 < 16 := Nat.mod_lt _ (by omega)
  revert hd
  generalize v / 16 ^ (15 - i) % 16 = d
  revert d
  decide

theorem csvQuoteNeeded_statusStr (st : Status) : csvQuoteNeeded (statusStr st) = false := by
  cases st <;> decide

theorem csvQuoteNeeded_pad6 (n : Nat) : csvQuoteNeeded (pad6 n) = false := by
  rw [csvQuoteNeeded, pad6_data]
  apply List.any_eq_false.mpr
  intro c hc
  rcases List.mem_append.mp hc with hrep | hdec
  · have h0 : c = '0' := List.eq_of_mem_replicate hrep
    subst h0
    decide
  · rw [decRepr, decDigitsRev, List.mem_reverse] at hdec
    obtain ⟨d, hd, rfl⟩ := decDigitsRevFuel_mem _ _ _ hdec
    clear hc hdec
    revert hd
    revert d
    decide

theorem encodeInfo_clean (e : Info) (hname : csvQuoteNeeded e.name = false) :
    2 ≤ (encodeInfo e).length ∧ ∀ f ∈ encodeInfo e, csvQuoteNeeded f = false := by
  refine ⟨by simp [encodeInfo], ?_⟩
  intro f hf
  rw [encodeInfo] at hf
  rcases List.mem_cons.mp hf with rfl | hf
  · exact csvQuoteNeeded_hex16 _
  rcases List.mem_cons.mp hf with rfl | hf
  · exact csvQuoteNeeded_statusStr _
  rcases List.mem_cons.mp hf with rfl | hf
  · exact csvQuoteNeeded_pad6 _
  rcases List.mem_cons.mp hf with rfl | hf
  · exact hname
  · exact absurd hf (by simp)

theorem roundtrip_records (entries : List Info)
    (hbounds : ∀ e ∈ entries, e.addr &&& ADDRESS_BASE = 0 ∧ e.addr < 2 ^ 64 ∧ e.size < 2 ^ 32)
    (hnames : ∀ e ∈ entries, e.is_decompiled = true → e.name ≠ "")
    (hnodup : (nonemptyNames entries).Nodup) :
    get_functions_for_path (write_functions_to_path entries) = .ok entries := by
  rw [write_functions_to_path, get_functions_header]
  simp only [loadRows, parseRows_encode entries hbounds 2]
  exact validateEntries_ok entries hnames hnodup

/-! The claims. -/

/-- C1, counterexample: two failures of the claimed round trip, both on
entry sequences satisfying every load-time invariant.  First, the single
entry with relative address `2 ^ 32` — a bit shared with `ADDRESS_BASE` —
is written and reloaded as relative address `0`, because the writer
computes the absolute address with bitwise or, not addition.  Second, the
delimiter- and newline-free name consisting of one quote character is
quoted and escaped by the writer (default `QuoteStyle::Necessary`) but
read back with quoting disabled, reloading as the four-character name
`\x22\x22\x22\x22`. -/
theorem C1_roundtrip_counterexample :
    (get_functions_file (write_functions_file [⟨4294967296, 4, "foo", .Matching⟩])
      = .ok [⟨0, 4, "foo", .Matching⟩]
    ∧ get_functions_file (write_functions_file [⟨4294967296, 4, "foo", .Matching⟩])
      ≠ .ok [⟨4294967296, 4, "foo", .Matching⟩])
    ∧ get_functions_file (write_functions_file [⟨16, 4, String.mk ['"'], .Matching⟩])
      = .ok [⟨16, 4, String.mk ['"', '"', '"', '"'], .Matching⟩] := by
  refine ⟨⟨by decide, by decide⟩, by decide⟩

/-- C1 (amended): for every entry sequence satisfying the load-time
invariants (every decompiled entry has a non-empty name, non-empty names
are pairwise distinct) whose names are additionally free of the quote
character as well as the delimiter and CR/LF, and whose addresses share
no set bit with `ADDRESS_BASE` (with the `u64`/`u32` field bounds),
writing the file bytes with `write_functions_file` and reloading them
with `get_functions_file` returns exactly the original sequence: same
order and field-level equality on address, size, name and status. -/
theorem C1_roundtrip (entries : List Info)
    (hbounds : ∀ e ∈ entries, e.addr &&& ADDRESS_BASE = 0 ∧ e.addr < 2 ^ 64 ∧ e.size < 2 ^ 32)
    (hnames : ∀ e ∈ entries, e.is_decompiled = true → e.name ≠ "")
    (hnodup : (nonemptyNames entries).Nodup)
    (hclean : ∀ e ∈ entries, csvQuoteNeeded e.name = false) :
    get_functions_file (write_functions_file entries) = .ok entries := by
  have hrecords : ∀ r ∈ write_functions_to_path entries,
      2 ≤ r.length ∧ ∀ f ∈ r, csvQuoteNeeded f = false := by
    intro r hr
    rw [write_functions_to_path] at hr
    rcases List.mem_cons.mp hr with rfl | hr
    · exact ⟨by decide, by decide⟩
    · obtain ⟨e, he, rfl⟩ := List.mem_map.mp hr
      exact encodeInfo_clean e (hclean e he)
  rw [write_functions_file, get_functions_file, csvRead_csvWrite _ hrecords]
  exact roundtrip_records entries hbounds hnames hnodup

/-- Witness for C1 at the spec's round-trip example
`[{addr 0x10, size 4, "foo", Matching}, {addr 0x20, size 8, "", NotDecompiled}]`,
down to the file bytes. -/
theorem C1_roundtrip_witness :
    get_functions_file (write_functions_file
        [⟨0x10, 4, "foo", .Matching⟩, ⟨0x20, 8, "", .NotDecompiled⟩])
      = .ok [⟨0x10, 4, "foo", .Matching⟩, ⟨0x20, 8, "", .NotDecompiled⟩] :=
  C1_roundtrip [⟨0x10, 4, "foo", .Matching⟩, ⟨0x20, 8, "", .NotDecompiled⟩]
    (by decide) (by decide) (by decide) (by decide)

/-- C2, counterexample: on the hex text of the absolute address `0x10`,
which is strictly below the base, `parse_address` does not fail with a
range error: it succeeds with the wrapped value `0x10 - 0x7100000000 mod 2 ^ 64`. -/
theorem C2_parse_address_counterexample :
    (0x10 : Nat) < ADDRESS_BASE
    ∧ parse_address (hex16 0x10) = .ok 0xFFFFFF8F00000010 := by
  constructor
  · decide
  · decide

/-- C2 (amended): `parse_address` on the hex text of an absolute address
`a` always succeeds with the wrapping difference `(a + 2 ^ 64 -
ADDRESS_BASE) % 2 ^ 64`; no range error is produced when `a <
ADDRESS_BASE` (under overflow checks the subtraction panics instead of
returning an error).  When `a ≥ ADDRESS_BASE` the result is exactly
`a - ADDRESS_BASE`. -/
theorem C2_parse_address (a : Nat) (h64 : a < 2 ^ 64) :
    parse_address (hex16 a) = .ok ((a + 2 ^ 64 - ADDRESS_BASE) % 2 ^ 64)
    ∧ (ADDRESS_BASE ≤ a → parse_address (hex16 a) = .ok (a - ADDRESS_BASE)) := by
  have hbase : ADDRESS_BASE < 2 ^ 64 := by norm_num [ADDRESS_BASE]
  refine ⟨parse_address_hex16 a h64, fun hge => ?_⟩
  rw [parse_address_hex16 a h64]
  have hmod : (a + 2 ^ 64 - ADDRESS_BASE) % 2 ^ 64 = a - ADDRESS_BASE := by
    rw [show a + 2 ^ 64 - ADDRESS_BASE = (a - ADDRESS_BASE) + 2 ^ 64 by omega,
      Nat.add_mod_right, Nat.mod_eq_of_lt (by omega)]
  rw [hmod]

/-- Witness for C2 at the spec's example: parsing the hex text of
`0x7100000010` yields the relative address `0x10`. -/
theorem C2_parse_address_witness :
    ADDRESS_BASE ≤ 0x7100000010
    ∧ parse_address (hex16 0x7100000010) = .ok 0x10 :=
  ⟨by decide, (C2_parse_address 0x7100000010 (by decide)).2 (by decide)⟩

/-- C3, counterexample: for the entry with relative address `2 ^ 32` the
written address field is the hex of `2 ^ 32 ||| ADDRESS_BASE =
0x7100000000`, not the hex of `2 ^ 32 + ADDRESS_BASE = 0x7200000000`: the
absolute address on disk is the bitwise or with the base, not the sum the
claim states. -/
theorem C3_encode_counterexample :
    (encodeInfo ⟨4294967296, 0, "", .NotDecompiled⟩).head?
      = some (hex16 (4294967296 ||| ADDRESS_BASE))
    ∧ (encodeInfo ⟨4294967296, 0, "", .NotDecompiled⟩).head?
      ≠ some (hex16 (4294967296 + ADDRESS_BASE)) := by
  constructor
  · decide
  · decide

/-- C3 (amended): the record written for an entry is
`[0x + 16 lowercase hex digits of (addr ||| ADDRESS_BASE), status code,
size zero-padded to 6 decimal digits, name verbatim]`; the absolute
address is the bitwise or with the base, which coincides with
`addr + ADDRESS_BASE` exactly when the address shares no set bit with the
base.  The address field has exactly 18 characters, starts with `0x`,
uses only lowercase hex digits, and parses back to the absolute value. -/
theorem C3_encode (e : Info) (h64 : e.addr < 2 ^ 64) :
    encodeInfo e = [hex16 (e.addr ||| ADDRESS_BASE), statusStr e.status, pad6 e.size, e.name]
    ∧ (e.addr &&& ADDRESS_BASE = 0 → e.addr ||| ADDRESS_BASE = e.addr + ADDRESS_BASE)
    ∧ parse_base_16 (hex16 (e.addr ||| ADDRESS_BASE)) = .ok (e.addr ||| ADDRESS_BASE)
    ∧ (hex16 (e.addr ||| ADDRESS_BASE)).data.take 2 = ['0', 'x']
    ∧ (hex16 (e.addr ||| ADDRESS_BASE)).data.length = 18
    ∧ (∀ c ∈ (hex16 (e.addr ||| ADDRESS_BASE)).data.drop 2, isLowerHexDigit c = true)
    ∧ 6 ≤ (pad6 e.size).data.length := by
  have hbase : ADDRESS_BASE < 2 ^ 64 := by norm_num [ADDRESS_BASE]
  have hlt : e.addr ||| ADDRESS_BASE < 2 ^ 64 := Nat.or_lt_two_pow h64 hbase
  refine ⟨rfl, fun h => lor_eq_add_of_land_eq_zero _ _ h,
    parse_base_16_hex16 _ hlt, ?_, ?_, ?_, ?_⟩
  · rw [hex16_data]
    rfl
  · rw [hex16_data]
    simp [hex16digits]
  · intro c hc
    rw [hex16_data] at hc
    simp only [List.drop_succ_cons, List.drop_zero] at hc
    simp only [hex16digits, List.mem_map, List.mem_range] at hc
    obtain ⟨i, _, rfl⟩ := hc
    have hd : (e.addr ||| ADDRESS_BASE) / 16 ^ (15 - i) % 16 < 16 := Nat.mod_lt _ (by omega)
    revert hd
    generalize (e.addr ||| ADDRESS_BASE) / 16 ^ (15 - i) % 16 = d
    revert d
    decide
  · rw [pad6_data]
    simp only [List.length_append, List.length_replicate]
    omega

/-- Witness for C3 at the entry `{addr 0x10, size 4, "foo", Matching}`. -/
theorem C3_encode_witness :
    encodeInfo ⟨0x10, 4, "foo", .Matching⟩
      = [hex16 (0x10 ||| ADDRESS_BASE), statusStr .Matching, pad6 4, "foo"]
    ∧ ((0x10 : Nat) &&& ADDRESS_BASE = 0 → (0x10 : Nat) ||| ADDRESS_BASE = 0x10 + ADDRESS_BASE) :=
  ⟨(C3_encode ⟨0x10, 4, "foo", .Matching⟩ (by decide)).1,
    (C3_encode ⟨0x10, 4, "foo", .Matching⟩ (by decide)).2.1⟩

/-- C9: a file with no records at all loads successfully as the empty
entry sequence — no header error, zero entries. -/
theorem C9_empty_file : get_functions_for_path [] = .ok [] := rfl

/-- C4, counterexample: the file row with on-disk address
`0x0000008000000000` decodes to relative address `0xF00000000` (absolute
minus base), and the missing-name error reports `0xF00000000 |||
ADDRESS_BASE = 0x7F00000000` — which is not the entry's absolute address
`0xF00000000 + ADDRESS_BASE = 0x8000000000`, because the error site also
uses bitwise or instead of addition. -/
theorem C4_missing_name_counterexample :
    parseRows [["0x0000008000000000", "O", "000004", ""]] 2
      = .ok [⟨0xF00000000, 4, "", .Matching⟩]
    ∧ get_functions_for_path [CSV_HEADER, ["0x0000008000000000", "O", "000004", ""]]
      = .error (.missingName 0x7F00000000)
    ∧ (0x7F00000000 : Nat) ≠ 0xF00000000 + ADDRESS_BASE := by
  refine ⟨by decide, by decide, by decide⟩

/-- C4 (amended): whenever the decoded entry sequence contains a
decompiled entry with an empty name, the load fails with a MissingName
error and returns no registry; the error identifies the first such entry
by `addr ||| ADDRESS_BASE` (its absolute address exactly when the relative
address shares no set bit with the base). -/
theorem C4_missing_name (rows : List (List String)) (pre : List Info) (e : Info)
    (post : List Info)
    (hp : parseRows rows 2 = .ok (pre ++ e :: post))
    (hpre : ∀ x ∈ pre, x.is_decompiled = true → x.name ≠ "")
    (hdec : e.is_decompiled = true) (hname : e.name = "") :
    get_functions_for_path (CSV_HEADER :: rows)
      = .error (.missingName (e.addr ||| ADDRESS_BASE)) := by
  rw [get_functions_header]
  simp only [loadRows, hp]
  exact validateEntries_missing pre e post hpre hdec hname

/-- Witness for C4: a file whose single data row is decompiled (`O`) with
an empty name fails with MissingName reporting `0x10 ||| ADDRESS_BASE`. -/
theorem C4_missing_name_witness :
    get_functions_for_path [CSV_HEADER, ["0x7100000010", "O", "000001", ""]]
      = .error (.missingName (0x10 ||| ADDRESS_BASE)) :=
  C4_missing_name [["0x7100000010", "O", "000001", ""]] [] ⟨0x10, 1, "", .Matching⟩ []
    (by decide) (by decide) (by decide) (by decide)

/-- C5: when the decoded entries have no missing-name violation, a load
whose non-empty names contain a repeat fails with a single DuplicateNames
error whose list counts every name exactly one time fewer than it occurs
among the non-empty names (so every repeated name is listed, one
occurrence per repeat beyond the first, and nothing else); when all
non-empty names are distinct the load succeeds with the decoded entries. -/
theorem C5_duplicates (rows : List (List String)) (entries : List Info)
    (hp : parseRows rows 2 = .ok entries)
    (hok : ∀ e ∈ entries, e.is_decompiled = true → e.name ≠ "") :
    ((∃ n, 2 ≤ (nonemptyNames entries).count n) →
      ∃ D, get_functions_for_path (CSV_HEADER :: rows) = .error (.duplicateNames D)
        ∧ D ≠ []
        ∧ ∀ nm, D.count nm = (nonemptyNames entries).count nm - 1)
    ∧ ((nonemptyNames entries).Nodup →
      get_functions_for_path (CSV_HEADER :: rows) = .ok entries) := by
  constructor
  · rintro ⟨n, hn⟩
    obtain ⟨D, hD, hcnt⟩ := validateEntries_dup entries hok n hn
    have hne : D ≠ [] := by
      intro h0
      have := hcnt n
      rw [h0, List.count_nil] at this
      omega
    refine ⟨D, ?_, hne, hcnt⟩
    rw [get_functions_header]
    simp only [loadRows, hp]
    exact hD
  · intro hnodup
    rw [get_functions_header]
    simp only [loadRows, hp]
    exact validateEntries_ok entries hok hnodup

/-- Witness for C5: two rows sharing the name `foo` fail with a
DuplicateNames error listing `foo` once. -/
theorem C5_duplicates_witness :
    ∃ D, get_functions_for_path
        [CSV_HEADER, ["0x7100000010", "O", "000001", "foo"],
          ["0x7100000020", "O", "000001", "foo"]]
      = .error (.duplicateNames D)
      ∧ D ≠ []
      ∧ ∀ nm, D.count nm
          = (nonemptyNames [⟨0x10, 1, "foo", .Matching⟩, ⟨0x20, 1, "foo", .Matching⟩]).count nm
            - 1 :=
  (C5_duplicates
      [["0x7100000010", "O", "000001", "foo"], ["0x7100000020", "O", "000001", "foo"]]
      [⟨0x10, 1, "foo", .Matching⟩, ⟨0x20, 1, "foo", .Matching⟩]
      (by decide) (by decide)).1 ⟨"foo", by decide⟩

/-- C6: for every non-empty record sequence, the load fails with a format
error (wrong arity or wrong header) whenever the first record is not
exactly `[Address, Quality, Size, Name]`; when the first record is
exactly that header, loading proceeds on the remaining records, and on
success the header contributed no entry (one entry per data record). -/
theorem C6_header (r : List String) (rows : List (List String)) :
    (r ≠ CSV_HEADER →
      ∃ err, get_functions_for_path (r :: rows) = .error err ∧ err.isFormat = true)
    ∧ (r = CSV_HEADER → get_functions_for_path (r :: rows) = loadRows rows)
    ∧ (∀ entries, get_functions_for_path (r :: rows) = .ok entries →
        r = CSV_HEADER ∧ entries.length = rows.length) := by
  refine ⟨?_, ?_, ?_⟩
  · intro hr
    by_cases h4 : r.length = 4
    · refine ⟨.wrongFormat, ?_, rfl⟩
      simp only [get_functions_for_path]
      rw [if_neg (by omega), if_pos hr]
    · refine ⟨.headerArity, ?_, rfl⟩
      simp only [get_functions_for_path]
      rw [if_pos h4]
  · intro hr
    subst hr
    exact get_functions_header rows
  · intro entries h
    by_cases h4 : r.length ≠ 4
    · simp only [get_functions_for_path] at h
      rw [if_pos h4] at h
      cases h
    · by_cases hr : r ≠ CSV_HEADER
      · simp only [get_functions_for_path] at h
        rw [if_neg h4, if_pos hr] at h
        cases h
      · have hr' : r = CSV_HEADER := not_not.mp hr
        subst hr'
        rw [get_functions_header] at h
        refine ⟨rfl, ?_⟩
        rw [loadRows] at h
        cases hp : parseRows rows 2 with
        | error e => rw [hp] at h; cases h
        | ok l =>
          rw [hp] at h
          have := validateEntries_ok_eq l entries h
          rw [this]
          exact parseRows_length rows 2 l hp

/-- Witness for C6: a first record that is not the header tuple fails with
a format error. -/
theorem C6_header_witness :
    ∃ err, get_functions_for_path [["Address", "Quality", "Size"]] = .error err
      ∧ err.isFormat = true :=
  (C6_header ["Address", "Quality", "Size"] []).1 (by decide)

/-- C7, counterexample: with the empty query, an entry whose name `x` fails
demangling (it does not start with `_Z`) is returned by the fuzzy phase —
the failed demangling is treated as the empty string, and the empty string
contains the empty query — so such names do not "never match". -/
theorem C7_fuzzy_counterexample :
    find_function_fuzzy demangleOracleNone [⟨0, 0, "x", .NotDecompiled⟩] ""
      = some ⟨0, 0, "x", .NotDecompiled⟩
    ∧ (('_' :: 'Z' :: []).isPrefixOf "x".data) = false
    ∧ demangle_str demangleOracleNone "x" = none := by
  refine ⟨by decide, by decide, by decide⟩

/-- C7 (amended): whenever some entry's name equals the query,
`find_function_fuzzy` returns an entry whose name equals the query; only
when no entry's name equals the query does it run the fuzzy phase, where a
returned entry satisfies the demangled-substring predicate (a name that
fails demangling — in particular one not starting with `_Z` — is treated
as the empty string, which matches only the empty query and never a
non-empty one), and it returns none when neither phase matches; demangling
failures are never surfaced as errors, only as non-matches. -/
theorem C7_fuzzy (oracle : String → Option String) (entries : List Info) (q : String) :
    ((∃ e ∈ entries, e.name = q) →
      ∃ e, find_function_fuzzy oracle entries q = some e ∧ e ∈ entries ∧ e.name = q)
    ∧ ((∀ e ∈ entries, e.name ≠ q) →
        find_function_fuzzy oracle entries q = entries.find? (fuzzyMatch oracle q)
        ∧ (∀ e, find_function_fuzzy oracle entries q = some e →
            e ∈ entries ∧ fuzzyMatch oracle q e = true)
        ∧ ((∀ e ∈ entries, fuzzyMatch oracle q e = false) →
            find_function_fuzzy oracle entries q = none))
    ∧ (∀ nm : String, ¬ (('_' :: 'Z' :: []).isPrefixOf nm.data = true) →
        demangle_str oracle nm = none)
    ∧ (q ≠ "" → strContains "" q = false) := by
  refine ⟨?_, ?_, ?_, ?_⟩
  · rintro ⟨e0, he0, hname⟩
    cases hf : entries.find? (fun f => f.name == q) with
    | none =>
      have := List.find?_eq_none.mp hf e0 he0
      rw [hname] at this
      simp at this
    | some f =>
      refine ⟨f, ?_, List.mem_of_find?_eq_some hf, ?_⟩
      · simp only [find_function_fuzzy, hf]
      · have := List.find?_some hf
        simpa using this
  · intro hno
    have hf : entries.find? (fun f => f.name == q) = none := by
      rw [List.find?_eq_none]
      intro x hx
      simp [hno x hx]
    have heq : find_function_fuzzy oracle entries q = entries.find? (fuzzyMatch oracle q) := by
      simp only [find_function_fuzzy, hf]
    refine ⟨heq, ?_, ?_⟩
    · intro e he
      rw [heq] at he
      exact ⟨List.mem_of_find?_eq_some he, List.find?_some he⟩
    · intro hfz
      rw [heq, List.find?_eq_none]
      intro x hx
      simp [hfz x hx]
  · intro nm h
    rw [demangle_str, if_neg h]
  · intro hq
    rw [strContains]
    cases hd : q.data with
    | nil =>
      exact absurd (String.ext hd) hq
    | cons c cs =>
      rfl

/-- Witness for C7: with an oracle demangling `_Z3fooi`, the exact phase
finds the entry named `_Z3fooi`. -/
theorem C7_fuzzy_witness :
    ∃ e, find_function_fuzzy demangleOracleFoo [⟨0, 0, "_Z3fooi", .Matching⟩] "_Z3fooi"
        = some e
      ∧ e ∈ [(⟨0, 0, "_Z3fooi", .Matching⟩ : Info)] ∧ e.name = "_Z3fooi" :=
  (C7_fuzzy demangleOracleFoo [⟨0, 0, "_Z3fooi", .Matching⟩] "_Z3fooi").1
    ⟨⟨0, 0, "_Z3fooi", .Matching⟩, by decide, by decide⟩

/-- C8: the status tables are mutually inverse bijections between the six
variants and the six one-character codes (O, m, M, U, W, L); any other
character is rejected with UnknownStatusCode and an empty status field
with MissingStatusCode (once the address and size fields parse, which the
source checks first). -/
theorem C8_status_codes :
    (∀ st, statusOfChar (charOfStatus st) = some st)
    ∧ (∀ c st, statusOfChar c = some st → charOfStatus st = c)
    ∧ (∀ c : Char, c ∉ (['O', 'm', 'M', 'U', 'W', 'L'] : List Char) → statusOfChar c = none)
    ∧ (∀ f0 f2 f3 : String, ∀ a s : Nat,
        parse_address f0 = .ok a → parseU32 f2 = .ok s →
        parse_function_csv_entry [f0, "", f2, f3] = .error .missingStatusCode)
    ∧ (∀ f0 f2 f3 : String, ∀ a s : Nat, ∀ c : Char, ∀ cs : List Char,
        parse_address f0 = .ok a → parseU32 f2 = .ok s → statusOfChar c = none →
        parse_function_csv_entry [f0, String.mk (c :: cs), f2, f3]
          = .error (.unknownStatusCode c)) := by
  refine ⟨statusOfChar_charOfStatus, ?_, ?_, ?_, ?_⟩
  · intro c st h
    unfold statusOfChar at h
    split_ifs at h with h1 h2 h3 h4 h5 h6
    · injection h with h'; subst h'; rw [h1]; rfl
    · injection h with h'; subst h'; rw [h2]; rfl
    · injection h with h'; subst h'; rw [h3]; rfl
    · injection h with h'; subst h'; rw [h4]; rfl
    · injection h with h'; subst h'; rw [h5]; rfl
    · injection h with h'; subst h'; rw [h6]; rfl
  · intro c hc
    unfold statusOfChar
    split_ifs <;> simp_all
  · intro f0 f2 f3 a s ha hs
    simp [parse_function_csv_entry, ha, hs]
  · intro f0 f2 f3 a s c cs ha hs hnone
    simp [parse_function_csv_entry, ha, hs, hnone]

/-- Witness for C8: the codes round-trip on `O`, the character `x` is
rejected, an empty status field is rejected. -/
theorem C8_status_codes_witness :
    statusOfChar 'x' = none
    ∧ parse_function_csv_entry ["0x7100000000", "", "000001", ""]
        = .error .missingStatusCode
    ∧ parse_function_csv_entry ["0x7100000000", "x", "000001", ""]
        = .error (.unknownStatusCode 'x') := by
  refine ⟨C8_status_codes.2.2.1 'x' (by decide), ?_, ?_⟩
  · exact C8_status_codes.2.2.2.1 "0x7100000000" "000001" "" 0 1 (by decide) (by decide)
  · exact C8_status_codes.2.2.2.2 "0x7100000000" "000001" "" 0 1 'x' []
      (by decide) (by decide) (by decide)

/-- C10: `find_function_fuzzy` is deterministic (it is a pure function of
its inputs, so two runs agree), and in each phase the returned entry is
the one at the lowest index among all entries satisfying that phase's
predicate, as `rayon`'s `find_first` guarantees: when an exact match
exists the result is the first exact match (everything before it fails
the exact predicate), and when none exists but a fuzzy match does, the
result is the first fuzzy match. -/
theorem C10_find_first (oracle : String → Option String) (entries : List Info) (q : String) :
    find_function_fuzzy oracle entries q = find_function_fuzzy oracle entries q
    ∧ ((∃ e ∈ entries, (e.name == q) = true) →
        ∃ l₁ e l₂, entries = l₁ ++ e :: l₂ ∧ (e.name == q) = true
          ∧ (∀ x ∈ l₁, (x.name == q) = false)
          ∧ find_function_fuzzy oracle entries q = some e)
    ∧ ((∀ e ∈ entries, (e.name == q) = false) →
        (∃ e ∈ entries, fuzzyMatch oracle q e = true) →
        ∃ l₁ e l₂, entries = l₁ ++ e :: l₂ ∧ fuzzyMatch oracle q e = true
          ∧ (∀ x ∈ l₁, fuzzyMatch oracle q x = false)
          ∧ find_function_fuzzy oracle entries q = some e) := by
  refine ⟨rfl, ?_, ?_⟩
  · rintro ⟨e0, he0, hp0⟩
    cases hf : entries.find? (fun f => f.name == q) with
    | none => exact absurd hp0 (by simpa using List.find?_eq_none.mp hf e0 he0)
    | some f =>
      obtain ⟨hpf, l₁, l₂, hsplit, hall⟩ := (find?_eq_some_split _ entries f).mp hf
      exact ⟨l₁, f, l₂, hsplit, hpf, hall, by simp only [find_function_fuzzy, hf]⟩
  · intro hno hex
    have hf : entries.find? (fun f => f.name == q) = none := by
      rw [List.find?_eq_none]
      intro x hx
      simp [hno x hx]
    obtain ⟨e0, he0, hp0⟩ := hex
    cases hg : entries.find? (fuzzyMatch oracle q) with
    | none => exact absurd hp0 (by simpa using List.find?_eq_none.mp hg e0 he0)
    | some f =>
      obtain ⟨hpf, l₁, l₂, hsplit, hall⟩ := (find?_eq_some_split _ entries f).mp hg
      exact ⟨l₁, f, l₂, hsplit, hpf, hall, by simp only [find_function_fuzzy, hf, hg]⟩

/-- Witness for C10: with two entries named `b`, the first of them (index
1) is returned, not the later one. -/
theorem C10_find_first_witness :
    ∃ l₁ e l₂,
      ([⟨0, 0, "a", .NotDecompiled⟩, ⟨1, 0, "b", .NotDecompiled⟩,
        ⟨2, 0, "b", .NotDecompiled⟩] : List Info) = l₁ ++ e :: l₂
      ∧ (e.name == "b") = true
      ∧ (∀ x ∈ l₁, (x.name == "b") = false)
      ∧ find_function_fuzzy demangleOracleNone
          [⟨0, 0, "a", .NotDecompiled⟩, ⟨1, 0, "b", .NotDecompiled⟩,
            ⟨2, 0, "b", .NotDecompiled⟩] "b" = some e :=
  (C10_find_first demangleOracleNone
      [⟨0, 0, "a", .NotDecompiled⟩, ⟨1, 0, "b", .NotDecompiled⟩,
        ⟨2, 0, "b", .NotDecompiled⟩] "b").2.1
    ⟨⟨1, 0, "b", .NotDecompiled⟩, by decide, by decide⟩
